import Mathlib

/-!
Shallow embedding of the scalar reverse-mode autodiff engine in
`src/grad.py` (class `Value`), together with the gradient-zeroing helper of
`src/nn.py` (`Module.zero_grad`).

Modelling choices, kept as close to the Python source as Lean allows:

* Python `Value` objects live on a heap and are compared by identity.  We
  model the heap as an arena: a state `St F` holds the number of objects
  created so far (`size`) and the store (`cells : Nat → Cell F`, every
  index `≥ size` holding an inert dummy cell).  A "reference to a Value
  object" is its creation index; a fresh object is written at index `size`,
  so every construction returns a fresh index, and identity equality is
  index equality.
* `float` arithmetic is modelled by an arbitrary linear ordered field `F`
  (exact arithmetic; floating-point rounding is out of scope).  The
  transcendental functions `math.exp` and `math.log` are abstract
  parameters `fexp flog : F → F`; none of the proved properties depend on
  their values, only on how the engine wires them into the graph.
* `Value.grad` is initialised to `0`, `Value._backward` to a no-op
  (`lambda: None`), `Value._prev` to `set(_children)`.  Python closures
  stored in `_backward` capture object identities plus the forward numbers
  they read at construction time; we reify each closure shape as a
  constructor of `BwdRule` and interpret it with `runBwd`.
* `Value._prev` is a Python `set`, deduplicated by identity; its iteration
  order is unspecified in Python.  We model it as a deduplicated list in
  insertion order.  All proved properties are independent of this order.
* `Value.__pow__` asserts `isinstance(other, (int, float))`.  We model the
  exponent argument as `Exponent`: either a plain integer constant or a
  reference to a cell, the latter rejected exactly as the `assert` does.
  (The source also admits float exponents; integer exponents cover every
  use in the repository and in the properties below.)
* `math.log` raises `ValueError("math domain error")` for a non-positive
  argument, before any `Value` is constructed; `log` therefore returns
  `Except String` and leaves no trace in the state on failure.
-/

namespace Micrograd

/-- Reified shapes of the `_backward` closures created in `src/grad.py`.
Each constructor records the captured object identities (arena indices) and
any forward number the closure captured at construction time. -/
inductive BwdRule (F : Type) where
  /-- the default `lambda: None` of `Value.__init__` -/
  | noop : BwdRule F
  /-- closure of `__add__`: `self.grad += out.grad * 1.0; other.grad += out.grad * 1.0` -/
  | addB (i j o : Nat) : BwdRule F
  /-- closure of `__mul__`: `self.grad += other.data * out.grad; other.grad += self.data * out.grad` -/
  | mulB (i j o : Nat) : BwdRule F
  /-- closure of `__pow__`: `self.grad += other * self.data ** (other-1) * out.grad` -/
  | powB (i : Nat) (k : ℤ) (o : Nat) : BwdRule F
  /-- closure of `exp`: `self.grad += out.data * out.grad` -/
  | expB (i o : Nat) : BwdRule F
  /-- closure of `log`: `self.grad += out.grad * (1 / x)`, `x` captured -/
  | logB (i : Nat) (x : F) (o : Nat) : BwdRule F
  /-- closure of `tanh`: `self.grad += (1 - t**2) * out.grad`, `t` captured -/
  | tanhB (i : Nat) (t : F) (o : Nat) : BwdRule F
  /-- closure of `relu`: `self.grad += (out.data > 0) * out.grad` -/
  | reluB (i o : Nat) : BwdRule F
  deriving DecidableEq

/-- One `Value` object of `src/grad.py` (fields `data`, `grad`, `_backward`,
`_prev`, `_op`, `label`). -/
structure Cell (F : Type) where
  data : F
  grad : F
  bwd : BwdRule F
  prev : List Nat
  op : String
  label : String
  deriving DecidableEq

/-- The object heap: `size` objects have been created, object number `i`
lives at index `i` of the store. -/
structure St (F : Type) where
  size : Nat
  cells : Nat → Cell F

variable {F : Type} [LinearOrderedField F]

/-- An inert cell, the content of every heap slot not yet allocated. -/
def dummy : Cell F := { data := 0, grad := 0, bwd := .noop, prev := [], op := "", label := "" }

/-- The empty heap: no `Value` has been created yet. -/
def emptySt : St F := ⟨0, fun _ => dummy⟩

def cellOf (st : St F) (i : Nat) : Cell F := st.cells i

def dataOf (st : St F) (i : Nat) : F := (cellOf st i).data

def gradOf (st : St F) (i : Nat) : F := (cellOf st i).grad

def prevOf (st : St F) (i : Nat) : List Nat := (cellOf st i).prev

def bwdOf (st : St F) (i : Nat) : BwdRule F := (cellOf st i).bwd

/-- Overwrite one heap slot (mutation of one object, visible through every
reference to it). -/
def setCell (st : St F) (i : Nat) (c : Cell F) : St F :=
  ⟨st.size, fun n => if n = i then c else st.cells n⟩

/-- `self.grad = g` -/
def setGrad (st : St F) (i : Nat) (g : F) : St F :=
  setCell st i { cellOf st i with grad := g }

/-- `self.grad += g` -/
def addGrad (st : St F) (i : Nat) (g : F) : St F :=
  setGrad st i (gradOf st i + g)

/-- `out._backward = _backward` (and, in `log`, `self._backward = _backward`) -/
def setBwd (st : St F) (i : Nat) (r : BwdRule F) : St F :=
  setCell st i { cellOf st i with bwd := r }

/-- `Value.__init__(data, _children, _op)`: allocates a fresh object and
returns its identity.  `self._prev = set(_children)` receives an already
deduplicated list from each caller; `label` always defaults to `''`. -/
def mkValue (st : St F) (d : F) (children : List Nat) (o : String) : St F × Nat :=
  (⟨st.size + 1, fun n =>
      if n = st.size then
        { data := d, grad := 0, bwd := .noop, prev := children, op := o, label := "" }
      else st.cells n⟩,
   st.size)

/-- `set((self, other))`: the two-element tuple deduplicated by identity. -/
def dedup2 (i j : Nat) : List Nat := if i = j then [i] else [i, j]

/-- The `other` argument of a binary dunder method: a `Value` reference or a
raw number. -/
inductive Operand (F : Type) where
  | ref (j : Nat) : Operand F
  | num (c : F) : Operand F

/-- `other = other if isinstance(other, Value) else Value(other)` -/
def coerce (st : St F) (o : Operand F) : St F × Nat :=
  match o with
  | .ref j => (st, j)
  | .num c => mkValue st c [] ""

/-- `Value.__add__` -/
def add (st : St F) (i : Nat) (o : Operand F) : St F × Nat :=
  let p := coerce st o
  let st1 := p.1
  let j := p.2
  let q := mkValue st1 (dataOf st1 i + dataOf st1 j) (dedup2 i j) "+"
  (setBwd q.1 q.2 (.addB i j q.2), q.2)

/-- `Value.__mul__` -/
def mul (st : St F) (i : Nat) (o : Operand F) : St F × Nat :=
  let p := coerce st o
  let st1 := p.1
  let j := p.2
  let q := mkValue st1 (dataOf st1 i * dataOf st1 j) (dedup2 i j) "*"
  (setBwd q.1 q.2 (.mulB i j q.2), q.2)

/-- The exponent argument of `Value.__pow__`: a plain numeric constant or a
`Value` reference. -/
inductive Exponent where
  | num (k : ℤ) : Exponent
  | ref (j : Nat) : Exponent

/-- The body of `Value.__pow__` once the `assert` has passed. -/
def powNum (st : St F) (i : Nat) (k : ℤ) : St F × Nat :=
  let q := mkValue st ((dataOf st i) ^ k) [i] ("**" ++ toString k)
  (setBwd q.1 q.2 (.powB i k q.2), q.2)

/-- `Value.__pow__`: `assert isinstance(other, (int, float))` rejects a
`Value` exponent with an `AssertionError`. -/
def pow (st : St F) (i : Nat) (e : Exponent) : Except String (St F × Nat) :=
  match e with
  | .ref _ => .error "only supported for int/float"
  | .num k => .ok (powNum st i k)

/-- `Value.__truediv__`: `return self * other**-1`.  When `other` is a raw
number, `other**-1` is evaluated on plain numbers first and only the result
is coerced by `__mul__`; when it is a `Value`, `__pow__(-1)` builds a cell. -/
def truediv (st : St F) (i : Nat) (o : Operand F) : St F × Nat :=
  match o with
  | .num c => mul st i (.num (c ^ (-1 : ℤ)))
  | .ref j =>
    let p := powNum st j (-1)
    mul p.1 i (.ref p.2)

/-- `Value.__neg__`: `return self * -1` -/
def neg (st : St F) (i : Nat) : St F × Nat := mul st i (.num (-1))

/-- `Value.__sub__`: `return self + (-other)`.  For a raw number the
negation happens on the plain number; for a `Value` it builds `other * -1`. -/
def sub (st : St F) (i : Nat) (o : Operand F) : St F × Nat :=
  match o with
  | .num c => add st i (.num (-c))
  | .ref j =>
    let p := neg st j
    add p.1 i (.ref p.2)

/-- `Value.__radd__`: `return self + other` -/
def radd (st : St F) (c : F) (i : Nat) : St F × Nat := add st i (.num c)

/-- `Value.__rmul__`: `return self * other` -/
def rmul (st : St F) (c : F) (i : Nat) : St F × Nat := mul st i (.num c)

/-- `Value.__rsub__`: `return -self + other` -/
def rsub (st : St F) (c : F) (i : Nat) : St F × Nat :=
  let p := neg st i
  add p.1 p.2 (.num c)

/-- `grad.py` defines `__radd__` (l.184), `__rmul__` (l.190) and `__rsub__`
(l.196) but no `__rtruediv__`; Python therefore raises `TypeError` when a
raw number is divided by a `Value`, and no cell is produced. -/
def rtruediv (st : St F) (c : F) (i : Nat) : Except String (St F × Nat) :=
  .error "unsupported operand type(s) for /"

variable (fexp flog : F → F)

/-- `Value.exp` -/
def exp (st : St F) (i : Nat) : St F × Nat :=
  let x := dataOf st i
  let q := mkValue st (fexp x) [i] "exp"
  (setBwd q.1 q.2 (.expB i q.2), q.2)

/-- The body of `Value.log` once `math.log` has succeeded.  Note the source
line 129 reads `self._backward = _backward`: the closure is installed on the
*operand*, overwriting whatever `_backward` the operand had, while the new
`out` cell keeps the default no-op. -/
def logOk (st : St F) (i : Nat) : St F × Nat :=
  let x := dataOf st i
  let q := mkValue st (flog x) [i] "log"
  (setBwd q.1 i (.logB i x q.2), q.2)

/-- `Value.log`: `math.log(x)` raises `ValueError("math domain error")` for
`x ≤ 0` before any `Value` is constructed. -/
def log (st : St F) (i : Nat) : Except String (St F × Nat) :=
  if dataOf st i ≤ 0 then .error "math domain error"
  else .ok (logOk flog st i)

/-- `Value.tanh`: `t = (math.exp(2*x)-1)/(math.exp(2*x)+1)` -/
def tanh (st : St F) (i : Nat) : St F × Nat :=
  let x := dataOf st i
  let t := (fexp (2 * x) - 1) / (fexp (2 * x) + 1)
  let q := mkValue st t [i] "tanh"
  (setBwd q.1 q.2 (.tanhB i t q.2), q.2)

/-- `Value.relu`: `t = x if x > 0 else 0` -/
def relu (st : St F) (i : Nat) : St F × Nat :=
  let x := dataOf st i
  let t := if 0 < x then x else 0
  let q := mkValue st t [i] "relu"
  (setBwd q.1 q.2 (.reluB i q.2), q.2)

/-- Interpretation of one stored `_backward` closure (`node._backward()`).
`data` fields never mutate, so reading them from the current state equals
reading the captured construction-time values. -/
def runBwd (s : St F) (r : BwdRule F) : St F :=
  match r with
  | .noop => s
  | .addB i j o =>
    let s1 := addGrad s i (gradOf s o * 1)
    addGrad s1 j (gradOf s1 o * 1)
  | .mulB i j o =>
    let s1 := addGrad s i (dataOf s j * gradOf s o)
    addGrad s1 j (dataOf s1 i * gradOf s1 o)
  | .powB i k o => addGrad s i ((k : F) * (dataOf s i) ^ (k - 1) * gradOf s o)
  | .expB i o => addGrad s i (dataOf s o * gradOf s o)
  | .logB i x o => addGrad s i (gradOf s o * (1 / x))
  | .tanhB i t o => addGrad s i ((1 - t ^ 2) * gradOf s o)
  | .reluB i o => addGrad s i ((if 0 < dataOf s o then (1 : F) else 0) * gradOf s o)

/-- `build_topo` of `Value.backward`: depth-first traversal with a visited
set, appending each node to the topological list after its children.  The
accumulator is `(visited, topo)`.  The fuel argument only serves Lean's
termination; on a well-formed state (children have strictly smaller arena
indices) fuel `i + 1` is never exhausted. -/
def dfsN (st : St F) : Nat → Nat → List Nat × List Nat → List Nat × List Nat
  | 0, _, acc => acc
  | fuel + 1, i, acc =>
    if i ∈ acc.1 then acc
    else
      let r := (prevOf st i).foldl (fun a j => dfsN st fuel j a) (i :: acc.1, acc.2)
      (r.1, r.2 ++ [i])

/-- The `topo` list produced by `build_topo(self)` with `visited = set()`. -/
def buildTopo (st : St F) (root : Nat) : List Nat :=
  (dfsN st (root + 1) root ([], [])).2

/-- `Value.backward`: build the topological order, set `self.grad = 1.0`,
then run `node._backward()` for `node in reversed(topo)`. -/
def backward (st : St F) (root : Nat) : St F :=
  (buildTopo st root).reverse.foldl (fun s k => runBwd s (bwdOf s k)) (setGrad st root 1)

/-- `Module.zero_grad` of `src/nn.py` (`p.grad = 0`), applied to every cell
of the graph. -/
def zeroGradAll (st : St F) : St F := ⟨st.size, fun n => { st.cells n with grad := 0 }⟩

/-- Well-formedness of a heap: every recorded operand has a strictly
smaller index than the cell it produced.  Every state built through the
operation set on valid references satisfies this (construction is strictly
define-by-run, so the operand graph is acyclic). -/
def WF (st : St F) : Prop := ∀ i, ∀ j ∈ prevOf st i, j < i

/-- Reachability along operand edges, from the root downwards. -/
inductive Reach (st : St F) (r : Nat) : Nat → Prop where
  | refl : Reach st r r
  | step {c j : Nat} : Reach st r c → j ∈ prevOf st c → Reach st r j

/-- The `leaf` constructor of the specification: wrap a raw number
(`Value(data)`). -/
def leaf (st : St F) (d : F) : St F × Nat := mkValue st d [] ""

/-- A heap holding a single fresh leaf. -/
def leafSt (d : F) : St F := (leaf emptySt d).1

/-- Scenario for the fan-out property: `a` at 0, `b1` at 1, `c1 = a*b1` at
2, `b2` at 3, `c2 = a*b2` at 4, `r = c1+c2` at 5. -/
def fanoutSt (va vb1 vb2 : F) : St F :=
  let s1 := (leaf emptySt va).1
  let s2 := (leaf s1 vb1).1
  let s3 := (mul s2 0 (.ref 1)).1
  let s4 := (leaf s3 vb2).1
  let s5 := (mul s4 0 (.ref 3)).1
  (add s5 2 (.ref 4)).1

/-- Scenario for the chain rule: `a` at 0, `b` at 1, `a*b` at 2,
`y = tanh(a*b)` at 3. -/
def tanhSt (fexp : F → F) (va vb : F) : St F :=
  let s1 := (leaf emptySt va).1
  let s2 := (leaf s1 vb).1
  let s3 := (mul s2 0 (.ref 1)).1
  (tanh fexp s3 2).1

/-- Scenario with two `log` consumers of one cell: `a = Value(2)` at 0,
`y1 = a.log()` at 1, `y2 = a.log()` at 2, `r = y1 + y2` at 3. -/
def dblLogSt (flog : F → F) : St F :=
  let s1 := leafSt (2 : F)
  let s2 := (logOk flog s1 0).1
  let s3 := (logOk flog s2 0).1
  (add s3 1 (.ref 2)).1

/-- `l` is a cell freshly allocated by the step from `st` to `st'` (so it
aliases no previously existing cell), holding a leaf: no operands, the
default no-op backward rule, value `c` and the empty operation tag. -/
def FreshLeafAt (st st' : St F) (l : Nat) (c : F) : Prop :=
  st.size ≤ l ∧ l < st'.size ∧ prevOf st' l = [] ∧ bwdOf st' l = .noop
    ∧ dataOf st' l = c ∧ (cellOf st' l).op = ""

/-- Every operand of a listed cell is itself listed: the traversal output
contains the full reachable sub-graph. -/
def ChildrenClosed (st : St F) (topo : List Nat) : Prop :=
  ∀ x ∈ topo, ∀ j ∈ prevOf st x, j ∈ topo

/-- No cell in the list is followed by one of its own operands: in
post-order, operands come strictly before their consumers, hence in the
reversed processing order every consumer runs first. -/
def NoForwardEdge (st : St F) (topo : List Nat) : Prop :=
  topo.Pairwise (fun a b => b ∉ prevOf st a)

end Micrograd

namespace Micrograd

variable {F : Type} [LinearOrderedField F]

/-! ### Supporting lemmas -/

theorem zeroGradAll_setGrad (s : St F) (i : Nat) (g : F) :
    zeroGradAll (setGrad s i g) = zeroGradAll s := by
  unfold zeroGradAll setGrad setCell
  congr 1
  funext n
  by_cases h : n = i <;> simp [h, cellOf]

theorem zeroGradAll_addGrad (s : St F) (i : Nat) (g : F) :
    zeroGradAll (addGrad s i g) = zeroGradAll s := zeroGradAll_setGrad s i _

theorem zeroGradAll_runBwd (s : St F) (r : BwdRule F) :
    zeroGradAll (runBwd s r) = zeroGradAll s := by
  cases r <;> simp [runBwd, zeroGradAll_addGrad]

theorem zeroGradAll_bwdFold (l : List Nat) :
    ∀ s : St F, zeroGradAll (l.foldl (fun s k => runBwd s (bwdOf s k)) s) = zeroGradAll s := by
  induction l with
  | nil => intro s; rfl
  | cons k l ih => intro s; rw [List.foldl_cons, ih, zeroGradAll_runBwd]

theorem zeroGradAll_backward (st : St F) (root : Nat) :
    zeroGradAll (backward st root) = zeroGradAll st := by
  rw [backward, zeroGradAll_bwdFold, zeroGradAll_setGrad]

theorem zeroGradAll_eq_self (st : St F) (h : ∀ n, (st.cells n).grad = 0) :
    zeroGradAll st = st := by
  cases st with
  | mk size cells =>
    unfold zeroGradAll
    congr 1
    funext n
    have := h n
    cases hc : cells n
    simp_all

/-! ### Claim theorems -/

/-- C1: gradient accumulation on fan-out.  For all leaf values, building
`c1 = a*b1`, `c2 = a*b2`, `r = c1+c2` (all gradients initially 0) and
running backward from `r` leaves `gradient(a) = value(b1) + value(b2)`:
contributions from both consumers of `a` are summed. -/
theorem fanout_gradient_accumulates (va vb1 vb2 : F) :
    gradOf (backward (fanoutSt va vb1 vb2) 5) 0 = vb1 + vb2 := by
  have h : buildTopo (fanoutSt va vb1 vb2) 5 = [0, 1, 2, 3, 4, 5] := rfl
  rw [backward, h]
  norm_num [fanoutSt, leaf, leafSt, emptySt, runBwd, addGrad, setGrad, setCell, gradOf, dataOf,
    bwdOf, prevOf, cellOf, mkValue, mul, add, coerce, dedup2, setBwd, dummy]
  ring

/-- C5: chain-rule exactness through `tanh`.  For all leaf values and any
exponential function, building `y = tanh(a*b)` (forward value
`(e^{2x}-1)/(e^{2x}+1)`) and running backward from `y` gives
`gradient(a) = (1 - value(y)^2) * value(b)` and symmetrically for `b`. -/
theorem tanh_chain_rule (fexp : F → F) (va vb : F) :
    gradOf (backward (tanhSt fexp va vb) 3) 0 = (1 - dataOf (tanhSt fexp va vb) 3 ^ 2) * vb
    ∧ gradOf (backward (tanhSt fexp va vb) 3) 1 = (1 - dataOf (tanhSt fexp va vb) 3 ^ 2) * va := by
  have h : buildTopo (tanhSt fexp va vb) 3 = [0, 1, 2, 3] := rfl
  constructor <;>
  · rw [backward, h]
    norm_num [tanhSt, leaf, leafSt, emptySt, runBwd, addGrad, setGrad, setCell, gradOf, dataOf,
      bwdOf, prevOf, cellOf, mkValue, mul, tanh, coerce, dedup2, setBwd, dummy]
    ring

/-- C10: self-operand accumulation.  Using the same cell for both operands
stores it once in the operand set (`prev` is `[0]`), yet backward still
accumulates both contributions: `a*a` gives `gradient(a) = 2*value(a)` and
`a+a` gives `gradient(a) = 2`. -/
theorem self_operand_accumulates (va : F) :
    prevOf (mul (leafSt va) 0 (.ref 0)).1 1 = [0]
    ∧ gradOf (backward (mul (leafSt va) 0 (.ref 0)).1 1) 0 = 2 * va
    ∧ prevOf (add (leafSt va) 0 (.ref 0)).1 1 = [0]
    ∧ gradOf (backward (add (leafSt va) 0 (.ref 0)).1 1) 0 = 2 := by
  have hm : buildTopo (mul (leafSt va) 0 (.ref 0)).1 1 = [0, 1] := rfl
  have ha : buildTopo (add (leafSt va) 0 (.ref 0)).1 1 = [0, 1] := rfl
  refine ⟨rfl, ?_, rfl, ?_⟩ <;>
  · first
    | rw [backward, hm]
    | rw [backward, ha]
    norm_num [leaf, leafSt, emptySt, runBwd, addGrad, setGrad, setCell, gradOf, dataOf,
      bwdOf, prevOf, cellOf, mkValue, mul, add, coerce, dedup2, setBwd, dummy]
    try ring

/-- C8: the power contract.  A `Value` exponent is rejected by the
`assert` (no cell is produced); a plain integer exponent `k` produces a
cell of value `value(a)^k`, and backward from it pushes
`g*k*value(a)^(k-1)` (with `g = 1` at the root) into the operand. -/
theorem pow_contract (a : F) (k : ℤ) (st : St F) (i j : Nat) :
    pow st i (.ref j) = .error "only supported for int/float"
    ∧ pow st i (.num k) = .ok (powNum st i k)
    ∧ dataOf (powNum (leafSt a) 0 k).1 1 = a ^ k
    ∧ gradOf (backward (powNum (leafSt a) 0 k).1 1) 0 = (k : F) * a ^ (k - 1) := by
  have h : buildTopo (powNum (leafSt a) 0 k).1 1 = [0, 1] := rfl
  refine ⟨rfl, rfl, rfl, ?_⟩
  rw [backward, h]
  norm_num [leaf, leafSt, emptySt, runBwd, addGrad, setGrad, setCell, gradOf, dataOf,
    bwdOf, prevOf, cellOf, mkValue, powNum, setBwd, dummy]

/-- C7: log domain failure.  For every cell whose value is non-positive,
`log` fails at the forward call with the `math domain error` raised by
`math.log`, returning no cell and leaving the heap untouched (the `error`
branch carries no state at all). -/
theorem log_domain_fails (flog : F → F) (st : St F) (i : Nat) (h : dataOf st i ≤ 0) :
    log flog st i = .error "math domain error" := by
  rw [log, if_pos h]

/-- Witness for C7 at the spec's concrete input `log(leaf(-1.0))`. -/
theorem log_domain_fails_witness :
    dataOf (leafSt (-1 : ℚ)) 0 ≤ 0
    ∧ log id (leafSt (-1 : ℚ)) 0 = .error "math domain error" := by
  constructor
  · norm_num [leafSt, leaf, emptySt, mkValue, dataOf, cellOf]
  · exact log_domain_fails id (leafSt (-1 : ℚ)) 0 (by norm_num [leafSt, leaf, emptySt, mkValue, dataOf, cellOf])

/-- C9: backward on an operation-free root.  For every cell with an empty
operand set and the default no-op backward rule, `backward` amounts to
setting that cell's gradient to 1: its own value is untouched and every
other cell (gradient and value) is untouched. -/
theorem backward_leaf_frame (st : St F) (i : Nat)
    (hp : prevOf st i = []) (hb : bwdOf st i = .noop) :
    gradOf (backward st i) i = 1
    ∧ dataOf (backward st i) i = dataOf st i
    ∧ ∀ j, j ≠ i → cellOf (backward st i) j = cellOf st j := by
  have htopo : buildTopo st i = [i] := by
    simp [buildTopo, dfsN, hp]
  have hback : backward st i = setGrad st i 1 := by
    rw [backward, htopo]
    have hb2 : bwdOf (setGrad st i 1) i = BwdRule.noop := by
      simp only [bwdOf, cellOf, setGrad, setCell, if_pos rfl]
      exact hb
    simp [hb2, runBwd]
  rw [hback]
  refine ⟨?_, ?_, ?_⟩
  · simp [gradOf, cellOf, setGrad, setCell]
  · simp [dataOf, cellOf, setGrad, setCell]
  · intro j hj
    simp [cellOf, setGrad, setCell, hj]

/-- Witness for C9 on a concrete one-cell heap. -/
theorem backward_leaf_frame_witness :
    prevOf (leafSt (7 : ℚ)) 0 = [] ∧ bwdOf (leafSt (7 : ℚ)) 0 = .noop
    ∧ (gradOf (backward (leafSt (7 : ℚ)) 0) 0 = 1
       ∧ dataOf (backward (leafSt (7 : ℚ)) 0) 0 = dataOf (leafSt (7 : ℚ)) 0
       ∧ ∀ j, j ≠ 0 → cellOf (backward (leafSt (7 : ℚ)) 0) j = cellOf (leafSt (7 : ℚ)) j) :=
  ⟨rfl, rfl, backward_leaf_frame (leafSt (7 : ℚ)) 0 rfl rfl⟩

/-- C6: zero-gradient round trip.  For every heap whose gradients are all 0
(as holds for every freshly built graph) and every root, zeroing every
gradient after a backward pass and running backward again from the same
root reproduces the first pass exactly (the whole states coincide). -/
theorem zero_grad_roundtrip (st : St F) (root : Nat) (h : ∀ n, (st.cells n).grad = 0) :
    backward (zeroGradAll (backward st root)) root = backward st root := by
  rw [zeroGradAll_backward, zeroGradAll_eq_self st h]

/-- Witness for C6 on the concrete graph `a + a`. -/
theorem zero_grad_roundtrip_witness :
    (∀ n, (((add (leafSt (2 : ℚ)) 0 (.ref 0)).1).cells n).grad = 0)
    ∧ backward (zeroGradAll (backward (add (leafSt (2 : ℚ)) 0 (.ref 0)).1 1)) 1
      = backward (add (leafSt (2 : ℚ)) 0 (.ref 0)).1 1 := by
  have h : ∀ n, (((add (leafSt (2 : ℚ)) 0 (.ref 0)).1).cells n).grad = 0 := by
    intro n
    by_cases h0 : n = 0
    · simp [h0, add, coerce, mkValue, setBwd, setCell, cellOf, leafSt, leaf, emptySt, dummy]
    · by_cases h1 : n = 1 <;>
        simp [h0, h1, add, coerce, mkValue, setBwd, setCell, cellOf, leafSt, leaf, emptySt, dummy]
  exact ⟨h, zero_grad_roundtrip _ 1 h⟩

/-- C3 exhibit: `Value.log` installs its backward rule on the *operand*
(`self._backward = _backward`, grad.py line 129) instead of on the produced
cell.  Consequences, on `a = Value(2)`, `y1 = a.log()`, `y2 = a.log()`,
`r = y1 + y2`: the log cell's own rule is the default no-op, the rule lands
on `a` (each `log` overwriting the previous one), and backward from `r`
leaves `gradient(a) = 1/2` — the contribution of `y1` is lost, where the
specified per-consumer rule `a += g*(1/a.value)` would give `1`. -/
theorem log_rule_attached_to_operand (flog : F → F) :
    log flog (leafSt (2 : F)) 0 = .ok (logOk flog (leafSt (2 : F)) 0)
    ∧ bwdOf (logOk flog (leafSt (2 : F)) 0).1 1 = .noop
    ∧ bwdOf (logOk flog (leafSt (2 : F)) 0).1 0 = .logB 0 2 1
    ∧ gradOf (backward (dblLogSt flog) 3) 0 = 1 / 2 := by
  have h0 : ¬ dataOf (leafSt (2 : F)) 0 ≤ 0 := by
    norm_num [leafSt, leaf, emptySt, mkValue, dataOf, cellOf]
  have htopo : buildTopo (dblLogSt flog) 3 = [0, 1, 2, 3] := rfl
  refine ⟨by rw [log, if_neg h0], rfl, rfl, ?_⟩
  rw [backward, htopo]
  norm_num [dblLogSt, leafSt, leaf, emptySt, runBwd, addGrad, setGrad, setCell, gradOf,
    dataOf, bwdOf, prevOf, cellOf, mkValue, logOk, add, coerce, dedup2, setBwd, dummy]

/-- C4 counterexample: dividing a raw number by a cell does not build any
cell.  `Value` defines `__radd__`, `__rmul__` and `__rsub__` but no
`__rtruediv__` (grad.py lines 184-200), so Python raises `TypeError` for
`3 / Value(5)` instead of coercing the left operand. -/
theorem raw_div_left_raises :
    rtruediv (leafSt (5 : ℚ)) 3 0 = .error "unsupported operand type(s) for /" := rfl

/-- C4 (amended): every binary operation that supports a raw-number operand
(`add`, `mul`, `sub`, `div` with the number on the right; `add`, `mul`,
`sub` also on the left via `__radd__`/`__rmul__`/`__rsub__` — division with
a raw left operand is not supported) coerces the number into a freshly
allocated leaf cell with no operands before recording the dependency edge,
and returns the operation's result cell.  Freshness is by construction:
the coerced leaf occupies a new index (`≥ size`), so it never aliases any
previously created cell, in particular not an earlier leaf of equal value
(for `div` the allocated leaf holds `c^(-1)`, since Python computes
`other**-1` on the raw number before `__mul__` coerces it; for `sub` it
holds `-c`; `rsub` first allocates the `-1` leaf and the negation cell of
`__neg__`, so its coerced leaf sits two slots higher). -/
theorem raw_number_coerces_to_fresh_leaf (st : St F) (i : Nat) (c : F) :
    FreshLeafAt st (add st i (.num c)).1 st.size c
    ∧ (add st i (.num c)).2 = st.size + 1
    ∧ prevOf (add st i (.num c)).1 (st.size + 1) = dedup2 i st.size
    ∧ (add st i (.num c)).1.size = st.size + 2
    ∧ FreshLeafAt st (mul st i (.num c)).1 st.size c
    ∧ (mul st i (.num c)).2 = st.size + 1
    ∧ prevOf (mul st i (.num c)).1 (st.size + 1) = dedup2 i st.size
    ∧ FreshLeafAt st (sub st i (.num c)).1 st.size (-c)
    ∧ FreshLeafAt st (truediv st i (.num c)).1 st.size (c ^ (-1 : ℤ))
    ∧ FreshLeafAt st (radd st c i).1 st.size c
    ∧ (radd st c i).2 = st.size + 1
    ∧ FreshLeafAt st (rmul st c i).1 st.size c
    ∧ (rmul st c i).2 = st.size + 1
    ∧ FreshLeafAt st (rsub st c i).1 (st.size + 2) c
    ∧ (rsub st c i).2 = st.size + 3 := by
  unfold FreshLeafAt
  repeat' apply And.intro
  all_goals
    simp [add, mul, sub, truediv, radd, rmul, rsub, neg, coerce, mkValue, setBwd, setCell,
      cellOf, prevOf, bwdOf, dataOf, dedup2]
  all_goals omega

theorem reach_trans {st : St F} {r c x : Nat} (h1 : Reach st r c) (h2 : Reach st c x) :
    Reach st r x := by
  induction h2 with
  | refl => exact h1
  | step _ hj ih => exact Reach.step ih hj

/-- Main invariant lemma for the depth-first traversal `dfsN`.  The
accumulator `(vis, topo)` together with the list `G` of grey nodes (the
call path, all with indices above the node being expanded thanks to
well-formedness) satisfies: `vis` is `topo` plus the grey nodes; `topo`
stays operand-closed, operand-before-consumer ordered and duplicate-free;
the call only appends fresh nodes reachable from its argument, and its
argument ends up listed. -/
theorem dfs_main (st : St F) (hwf : ∀ i, ∀ j ∈ prevOf st i, j < i) :
    ∀ fu : Nat, ∀ (i : Nat) (vis topo G : List Nat), i < fu →
      (∀ x, x ∈ vis ↔ x ∈ topo ∨ x ∈ G) →
      (∀ g ∈ G, i < g) →
      ChildrenClosed st topo → NoForwardEdge st topo → topo.Nodup →
      (∃ δ, (dfsN st fu i (vis, topo)).2 = topo ++ δ
          ∧ ∀ x ∈ δ, x ∉ vis ∧ Reach st i x)
      ∧ (∀ x, x ∈ (dfsN st fu i (vis, topo)).1 ↔ x ∈ (dfsN st fu i (vis, topo)).2 ∨ x ∈ G)
      ∧ ChildrenClosed st (dfsN st fu i (vis, topo)).2
      ∧ NoForwardEdge st (dfsN st fu i (vis, topo)).2
      ∧ (dfsN st fu i (vis, topo)).2.Nodup
      ∧ i ∈ (dfsN st fu i (vis, topo)).2 := by
  intro fu
  induction fu with
  | zero =>
    intro i vis topo G hi
    exact absurd hi (Nat.not_lt_zero i)
  | succ f ih =>
    intro i vis topo G hi hvg hG hC hP hN
    by_cases hm : i ∈ vis
    · have hd : dfsN st (f + 1) i (vis, topo) = (vis, topo) := by
        simp [dfsN, hm]
      rw [hd]
      have hit : i ∈ topo := by
        rcases (hvg i).mp hm with h | h
        · exact h
        · exact absurd (hG i h) (lt_irrefl i)
      exact ⟨⟨[], by simp, by simp⟩, hvg, hC, hP, hN, hit⟩
    · have INNER : ∀ js : List Nat,
          (∀ j ∈ js, j < f) →
          (∀ j ∈ js, ∀ g ∈ i :: G, j < g) →
          ∀ vis' topo' : List Nat,
            (∀ x, x ∈ vis' ↔ x ∈ topo' ∨ x ∈ i :: G) →
            ChildrenClosed st topo' → NoForwardEdge st topo' → topo'.Nodup →
            (∃ δ, (js.foldl (fun a j => dfsN st f j a) (vis', topo')).2 = topo' ++ δ
                ∧ ∀ x ∈ δ, x ∉ vis' ∧ ∃ j ∈ js, Reach st j x)
            ∧ (∀ x, x ∈ (js.foldl (fun a j => dfsN st f j a) (vis', topo')).1
                  ↔ x ∈ (js.foldl (fun a j => dfsN st f j a) (vis', topo')).2 ∨ x ∈ i :: G)
            ∧ ChildrenClosed st (js.foldl (fun a j => dfsN st f j a) (vis', topo')).2
            ∧ NoForwardEdge st (js.foldl (fun a j => dfsN st f j a) (vis', topo')).2
            ∧ (js.foldl (fun a j => dfsN st f j a) (vis', topo')).2.Nodup
            ∧ (∀ j ∈ js, j ∈ (js.foldl (fun a j => dfsN st f j a) (vis', topo')).2) := by
        intro js
        induction js with
        | nil =>
          intro _ _ vis' topo' hvg' hC' hP' hN'
          exact ⟨⟨[], by simp, by simp⟩, hvg', hC', hP', hN', by simp⟩
        | cons j js' ihl =>
          intro hjs1 hjs2 vis' topo' hvg' hC' hP' hN'
          have hj1 : j < f := hjs1 j (List.mem_cons_self j js')
          have hj2 : ∀ g ∈ i :: G, j < g := hjs2 j (List.mem_cons_self j js')
          obtain ⟨A1, B1, C1, P1, N1, F1⟩ :=
            ih j vis' topo' (i :: G) hj1 hvg' hj2 hC' hP' hN'
          simp only [List.foldl_cons]
          rcases hr : dfsN st f j (vis', topo') with ⟨vis1, topo1⟩
          simp only [hr] at A1 B1 C1 P1 N1 F1
          obtain ⟨d1, hd1e, hd1f⟩ := A1
          obtain ⟨A2, B2, C2, P2, N2, F2⟩ :=
            ihl (fun a ha => hjs1 a (List.mem_cons_of_mem _ ha))
              (fun a ha => hjs2 a (List.mem_cons_of_mem _ ha)) vis1 topo1 B1 C1 P1 N1
          obtain ⟨d2, hd2e, hd2f⟩ := A2
          have hsub : ∀ x ∈ vis', x ∈ vis1 := by
            intro x hx
            rcases (hvg' x).mp hx with h | h
            · exact (B1 x).mpr (Or.inl (hd1e ▸ List.mem_append_left _ h))
            · exact (B1 x).mpr (Or.inr h)
          refine ⟨⟨d1 ++ d2, ?_, ?_⟩, B2, C2, P2, N2, ?_⟩
          · rw [hd2e, hd1e, List.append_assoc]
          · intro x hx
            rcases List.mem_append.mp hx with h | h
            · exact ⟨(hd1f x h).1, ⟨j, List.mem_cons_self _ _, (hd1f x h).2⟩⟩
            · refine ⟨fun hv => (hd2f x h).1 (hsub x hv), ?_⟩
              obtain ⟨j', hj', hr'⟩ := (hd2f x h).2
              exact ⟨j', List.mem_cons_of_mem _ hj', hr'⟩
          · intro a ha
            rcases List.mem_cons.mp ha with rfl | h
            · rw [hd2e]
              exact List.mem_append_left _ F1
            · exact F2 a h
      have hjs1 : ∀ j ∈ prevOf st i, j < f :=
        fun j hj => lt_of_lt_of_le (hwf i j hj) (Nat.lt_succ_iff.mp hi)
      have hjs2 : ∀ j ∈ prevOf st i, ∀ g ∈ i :: G, j < g := by
        intro j hj g hg
        rcases List.mem_cons.mp hg with rfl | h
        · exact hwf g j hj
        · exact lt_trans (hwf i j hj) (hG g h)
      have hvg' : ∀ x, x ∈ i :: vis ↔ x ∈ topo ∨ x ∈ i :: G := by
        intro x
        constructor
        · intro hx
          rcases List.mem_cons.mp hx with rfl | h
          · exact Or.inr (List.mem_cons_self _ _)
          · rcases (hvg x).mp h with h' | h'
            · exact Or.inl h'
            · exact Or.inr (List.mem_cons_of_mem _ h')
        · intro hx
          rcases hx with h | h
          · exact List.mem_cons_of_mem _ ((hvg x).mpr (Or.inl h))
          · rcases List.mem_cons.mp h with rfl | h'
            · exact List.mem_cons_self _ _
            · exact List.mem_cons_of_mem _ ((hvg x).mpr (Or.inr h'))
      obtain ⟨AI, BI, CI, PI, NI, FI⟩ :=
        INNER (prevOf st i) hjs1 hjs2 (i :: vis) topo hvg' hC hP hN
      rcases hr : (prevOf st i).foldl (fun a j => dfsN st f j a) (i :: vis, topo)
        with ⟨visC, topoC⟩
      simp only [hr] at AI BI CI PI NI FI
      obtain ⟨dC, hdCe, hdCf⟩ := AI
      have hd : dfsN st (f + 1) i (vis, topo) = (visC, topoC ++ [i]) := by
        simp [dfsN, hm, hr]
      rw [hd]
      have hiC : i ∉ topoC := by
        intro hin
        rw [hdCe] at hin
        rcases List.mem_append.mp hin with h | h
        · exact hm ((hvg i).mpr (Or.inl h))
        · exact (hdCf i h).1 (List.mem_cons_self _ _)
      refine ⟨⟨dC ++ [i], ?_, ?_⟩, ?_, ?_, ?_, ?_, ?_⟩
      · rw [hdCe, List.append_assoc]
      · intro x hx
        rcases List.mem_append.mp hx with h | h
        · obtain ⟨j', hjm, hrx⟩ := (hdCf x h).2
          exact ⟨fun hv => (hdCf x h).1 (List.mem_cons_of_mem _ hv),
            reach_trans (Reach.step Reach.refl hjm) hrx⟩
        · rcases List.mem_singleton.mp h with rfl
          exact ⟨hm, Reach.refl⟩
      · intro x
        constructor
        · intro hx
          rcases (BI x).mp hx with h | h
          · exact Or.inl (List.mem_append_left _ h)
          · rcases List.mem_cons.mp h with rfl | h'
            · exact Or.inl (List.mem_append_right _ (List.mem_singleton.mpr rfl))
            · exact Or.inr h'
        · intro hx
          rcases hx with h | h
          · rcases List.mem_append.mp h with h' | h'
            · exact (BI x).mpr (Or.inl h')
            · rcases List.mem_singleton.mp h' with rfl
              exact (BI x).mpr (Or.inr (List.mem_cons_self _ _))
          · exact (BI x).mpr (Or.inr (List.mem_cons_of_mem _ h))
      · intro x hx j hj
        rcases List.mem_append.mp hx with h | h
        · exact List.mem_append_left _ (CI x h j hj)
        · rcases List.mem_singleton.mp h with rfl
          exact List.mem_append_left _ (FI j hj)
      · refine List.pairwise_append.mpr ⟨PI, List.pairwise_singleton _ _, ?_⟩
        intro a ha b hb
        rcases List.mem_singleton.mp hb with rfl
        intro hcon
        exact hiC (CI a ha b hcon)
      · refine List.Nodup.append NI (List.nodup_singleton i) ?_
        intro a ha hb
        rcases List.mem_singleton.mp hb with rfl
        exact hiC ha
      · exact List.mem_append_right _ (List.mem_singleton.mpr rfl)

/-- C2: backward-pass ordering.  On every well-formed heap (every graph
built by the operation set) and for every root, the topological list built
by `build_topo` is duplicate-free and contains exactly the cells reachable
from the root by operand edges (de-duplication by identity), every listed
cell's operands appear strictly before it, and `backward` runs each listed
cell's stored `_backward` rule once, in the reverse of that list — so a
cell's rule fires only after the rules of all its consumers in the
traversal have fired. -/
theorem backward_pass_order (st : St F) (root : Nat) (hwf : WF st) :
    (buildTopo st root).Nodup
    ∧ (∀ x, x ∈ buildTopo st root ↔ Reach st root x)
    ∧ (∀ l1 c l2, buildTopo st root = l1 ++ c :: l2 → ∀ j ∈ prevOf st c, j ∈ l1)
    ∧ backward st root
      = (buildTopo st root).reverse.foldl (fun s k => runBwd s (bwdOf s k))
          (setGrad st root 1) := by
  have hwf' : ∀ i, ∀ j ∈ prevOf st i, j < i := hwf
  obtain ⟨A, B, C, P, N, Fr⟩ := dfs_main st hwf' (root + 1) root [] [] []
    (Nat.lt_succ_self root) (by simp) (by simp)
    (by intro x hx; exact absurd hx (List.not_mem_nil x)) List.Pairwise.nil List.nodup_nil
  have hbt : buildTopo st root = (dfsN st (root + 1) root ([], [])).2 := rfl
  refine ⟨hbt ▸ N, ?_, ?_, rfl⟩
  · intro x
    rw [hbt]
    constructor
    · intro hx
      obtain ⟨δ, he, hf⟩ := A
      rw [he, List.nil_append] at hx
      exact (hf x hx).2
    · intro hx
      induction hx with
      | refl => exact Fr
      | step _ hj ih => exact C _ ih _ hj
  · intro l1 c l2 he j hj
    have he' : (dfsN st (root + 1) root ([], [])).2 = l1 ++ c :: l2 := hbt ▸ he
    have hcin : c ∈ (dfsN st (root + 1) root ([], [])).2 := by
      rw [he']
      exact List.mem_append_right _ (List.mem_cons_self _ _)
    have hjin : j ∈ l1 ++ c :: l2 := by
      rw [← he']
      exact C c hcin j hj
    rcases List.mem_append.mp hjin with h | h
    · exact h
    · rcases List.mem_cons.mp h with rfl | h'
      · exact absurd (hwf' _ j hj) (lt_irrefl j)
      · have hP' : NoForwardEdge st (l1 ++ c :: l2) := he' ▸ P
        have hcl2 : ∀ b ∈ l2, b ∉ prevOf st c :=
          (List.pairwise_cons.mp (List.pairwise_append.mp hP').2.1).1
        exact absurd hj (hcl2 j h')

/-- Witness for C2 on the concrete well-formed graph `a * a`. -/
theorem backward_pass_order_witness :
    WF (mul (leafSt (2 : ℚ)) 0 (.ref 0)).1
    ∧ ((buildTopo (mul (leafSt (2 : ℚ)) 0 (.ref 0)).1 1).Nodup
       ∧ (∀ x, x ∈ buildTopo (mul (leafSt (2 : ℚ)) 0 (.ref 0)).1 1
            ↔ Reach (mul (leafSt (2 : ℚ)) 0 (.ref 0)).1 1 x)
       ∧ (∀ l1 c l2, buildTopo (mul (leafSt (2 : ℚ)) 0 (.ref 0)).1 1 = l1 ++ c :: l2
            → ∀ j ∈ prevOf (mul (leafSt (2 : ℚ)) 0 (.ref 0)).1 c, j ∈ l1)
       ∧ backward (mul (leafSt (2 : ℚ)) 0 (.ref 0)).1 1
         = (buildTopo (mul (leafSt (2 : ℚ)) 0 (.ref 0)).1 1).reverse.foldl
             (fun s k => runBwd s (bwdOf s k))
             (setGrad (mul (leafSt (2 : ℚ)) 0 (.ref 0)).1 1 1)) := by
  have hwf : WF (mul (leafSt (2 : ℚ)) 0 (.ref 0)).1 := by
    intro i j hj
    simp only [mul, coerce, mkValue, setBwd, setCell, cellOf, prevOf, dataOf, dedup2,
      leafSt, leaf, emptySt, dummy] at hj
    split_ifs at hj <;> simp_all
  exact ⟨hwf, backward_pass_order _ 1 hwf⟩
